import Mathlib

/-!
Verification of the keyword match analyzer of `src/app.py`
(functions `tokenize` and `analyze_match`, lines 87-116).

Texts are modelled as lists of Unicode codepoints (`List ℕ`), tokens as
lists of codepoints.  Python's `str.lower` and the word-character class
`\w` behind the regex boundary `\b` are Unicode-aware; the model encodes
their ASCII fragments (`lowerChar`, `isWordChar`).  The one theorem whose
truth depends on the exact extent of the word-character class — the
amended tokenizer characterization for claim C1 — therefore carries an
explicit hypothesis restricting the input to ASCII, where the fragments
are exact; the remaining claims hold for the real classes as well.

The float arithmetic of the score (line 108) is modelled as binary64:
the division and the multiplication are each rounded to a 53-bit
significand, nearest, ties to even, carried exactly as dyadic rationals
(`floatDivMant`, `floatTimes100Mant`).  The exponent is not clamped;
overflow and subnormals would need a job token set of size at least
`2 ^ 1020`, beyond any physically representable input.
-/

namespace ResumeTailor

/-- Character-wise model of the ASCII fragment of Python `str.lower`:
uppercase letters (codes 65-90) are shifted to lowercase (97-122), every
other codepoint is unchanged.  Unicode case mappings outside ASCII (such
as U+212A KELVIN SIGN lowering to `k`) are not encoded; the theorem that
depends on the exact mapping (C1's amended tokenizer characterization)
is restricted to ASCII inputs. -/
def lowerChar (n : ℕ) : ℕ := if 65 ≤ n ∧ n ≤ 90 then n + 32 else n

/-- The character class `[a-zA-Z]` of the regex in `tokenize` (line 94). -/
def isLetter (n : ℕ) : Bool := decide ((65 ≤ n ∧ n ≤ 90) ∨ (97 ≤ n ∧ n ≤ 122))

/-- The ASCII fragment `[A-Za-z0-9_]` of the Unicode-aware word-character
class `\w` that the regex word-boundary `\b` is defined from.  Python also
counts non-ASCII alphanumerics (such as `é`) as word characters; the
theorem that depends on the exact extent of the class (C1's amended
tokenizer characterization) is restricted to ASCII inputs. -/
def isWordChar (n : ℕ) : Bool := isLetter n || decide ((48 ≤ n ∧ n ≤ 57) ∨ n = 95)

/-- Encode a Lean string literal as a list of codepoints. -/
def strCodes (s : String) : List ℕ := s.toList.map Char.toNat

/-- The stopword set of `app.py` lines 87-91. -/
def STOPWORDS : List (List ℕ) :=
  ["the", "a", "an", "and", "or", "to", "of", "in", "on", "for", "with", "at", "by", "is",
   "are", "was", "were", "be", "this", "that", "as", "it", "from", "will", "you", "your",
   "our", "we", "they", "them", "their", "i", "me", "my"].map strCodes

/-- A regex match `\b[a-zA-Z]{2,}\b` succeeds exactly on a maximal run of
word characters that consists only of letters and has length at least 2. -/
def keepRun (r : List ℕ) : Bool := r.all isLetter && decide (2 ≤ r.length)

/-- Close the current (reversed) run of word characters at a boundary,
emitting it when it is a regex match. -/
def endRun (cur : List ℕ) : List (List ℕ) :=
  if cur = [] then [] else if keepRun cur.reverse then [cur.reverse] else []

/-- Left-to-right scan of `re.findall(r"\b[a-zA-Z]{2,}\b", ...)` (line 94):
word characters are accumulated into the current run (`cur`, reversed); at
each boundary the completed maximal run is emitted iff it is all letters
with length at least 2 (a run containing a digit or an underscore has no
interior `\b`, so it contributes no match at all). -/
def scanWords : List ℕ → List ℕ → List (List ℕ)
  | cur, [] => endRun cur
  | cur, c :: cs =>
    if isWordChar c then scanWords (c :: cur) cs else endRun cur ++ scanWords [] cs

/-- Model of `re.findall(r"\b[a-zA-Z]{2,}\b", text)` on an (already
lowercased) codepoint list. -/
def reFindallWords (l : List ℕ) : List (List ℕ) := scanWords [] l

/-- Model of `tokenize` (lines 93-95): find all regex matches in the
lowercased text, then drop stopwords. -/
def tokenize (text : List ℕ) : List (List ℕ) :=
  (reFindallWords (text.map lowerChar)).filter (fun w => decide (w ∉ STOPWORDS))

/-- Generic splitter into maximal runs of characters satisfying `p`
(characters not satisfying `p` are separators and are discarded);
`cur` is the current run, reversed. -/
def runsAux (p : ℕ → Bool) : List ℕ → List ℕ → List (List ℕ)
  | cur, [] => if cur = [] then [] else [cur.reverse]
  | cur, c :: cs =>
    if p c then runsAux p (c :: cur) cs
    else (if cur = [] then [] else [cur.reverse]) ++ runsAux p [] cs

/-- Maximal runs of characters satisfying `p`, in left-to-right order. -/
def runsBy (p : ℕ → Bool) (l : List ℕ) : List (List ℕ) := runsAux p [] l

/-- Tokenizer that claim C1 describes, built from its words: maximal runs
of ASCII letters of the lowercased input (every non-letter character,
including digits, separating runs), runs of length 1 dropped, stopwords
then removed. -/
def specTokenize (text : List ℕ) : List (List ℕ) :=
  ((runsBy isLetter (text.map lowerChar)).filter (fun r => decide (2 ≤ r.length))).filter
    (fun w => decide (w ∉ STOPWORDS))

/-- Boolean lexicographic order on codepoint lists, as Python compares
strings: shorter prefix first, otherwise by the first differing codepoint. -/
def lexLe : List ℕ → List ℕ → Bool
  | [], _ => true
  | _ :: _, [] => false
  | a :: as, b :: bs => if a < b then true else if b < a then false else lexLe as bs

/-- Propositional form of `lexLe`; `sorted(...)` in `analyze_match`
(line 116) sorts with respect to this order. -/
def tokLe (x y : List ℕ) : Prop := lexLe x y = true

instance : DecidableRel tokLe := fun x y => inferInstanceAs (Decidable (lexLe x y = true))

/-- Model of Python `sorted` on a list of tokens (lines 116). -/
def sortTokens (l : List (List ℕ)) : List (List ℕ) := List.insertionSort tokLe l

/-- One step of the frequency loop of lines 111-113:
`freq_job[w] = freq_job.get(w, 0) + 1` on an insertion-ordered
association list (the model of a Python dict). -/
def bump (freq : List (List ℕ × ℕ)) (w : List ℕ) : List (List ℕ × ℕ) :=
  if freq.any (fun p => decide (p.1 = w)) then
    freq.map (fun p => if p.1 = w then (p.1, p.2 + 1) else p)
  else freq ++ [(w, 1)]

/-- The frequency dict built by the loop of lines 111-113. -/
def freqTable (ts : List (List ℕ)) : List (List ℕ × ℕ) := ts.foldl bump []

/-- Value stored for key `w` in an association list, `0` when absent
(model of `dict.get(w, 0)`). -/
def getD (freq : List (List ℕ × ℕ)) (w : List ℕ) : ℕ :=
  match freq.find? (fun p => decide (p.1 = w)) with
  | some p => p.2
  | none => 0

/-- The comparison used by `sorted(freq_job.items(), key=lambda x: x[1],
reverse=True)` (line 115): descending count.  Python sort is stable and
`List.insertionSort` with this non-strict relation places an earlier
element before later equal-count ones, reproducing the stable order. -/
def countGE (a b : List ℕ × ℕ) : Prop := b.2 ≤ a.2

instance : DecidableRel countGE := fun a b => inferInstanceAs (Decidable (b.2 ≤ a.2))

instance : IsTotal (List ℕ × ℕ) countGE := ⟨fun a b => le_total b.2 a.2⟩

instance : IsTrans (List ℕ × ℕ) countGE := ⟨fun _ _ _ hab hbc => le_trans hbc hab⟩

/-- Model of Python `int(round(q))` applied to a float whose exact value
is the rational `q`: round to the nearest integer, ties to the even
neighbour. -/
def pyRound (q : ℚ) : ℤ :=
  let n := ⌊q⌋
  let r := q - n
  if r < 1 / 2 then n else if 1 / 2 < r then n + 1 else if 2 ∣ n then n else n + 1

/-- The rounding primitive of the binary64 model: the nearest integer to
the exact ratio `a / b`, ties to the even neighbour (`pyRound_natDiv`
proves it equal to `pyRound ((a : ℚ) / (b : ℚ))`). -/
def roundHalfEvenDiv (a b : ℕ) : ℕ :=
  let q := a / b
  let r := a % b
  if 2 * r < b then q else if b < 2 * r then q + 1 else if 2 ∣ q then q else q + 1

/-- Fuel-driven search for the smallest `k ≥ start` with `j ≤ o * 2 ^ k`
(the binary exponent of `o / j`); structural on the fuel so that it
evaluates in the kernel. -/
def kAux (o j : ℕ) : ℕ → ℕ → ℕ
  | 0, k => k
  | fuel + 1, k => if j ≤ o * 2 ^ k then k else kAux o j fuel (k + 1)

/-- The binary exponent of `o / j` for `1 ≤ o ≤ j`: the smallest `k` with
`2 ^ (-k) ≤ o / j`, so that `2 ^ (-k) ≤ o / j < 2 ^ (-k+1)`
(`floatDivExp_spec`); fuel `j` always suffices since `j ≤ 2 ^ j`. -/
def floatDivExp (o j : ℕ) : ℕ := kAux o j j 0

/-- The 53-bit significand of the binary64 quotient `o / j` (line 108's
float division, for `o ≤ j`): the exact quotient scaled into
`[2 ^ 52, 2 ^ 53]` and rounded to the nearest integer, ties to even —
exactly IEEE round-to-nearest-even.  The value of the float is
`floatDivMant o j / 2 ^ (floatDivExp o j + 52)`.  (The exponent is not
clamped: overflow and subnormals would need `j ≥ 2 ^ 1020`, far beyond
any physically representable token set.) -/
def floatDivMant (o j : ℕ) : ℕ :=
  roundHalfEvenDiv (o * 2 ^ (floatDivExp o j + 52)) j

/-- Renormalization shift for the float product `d1 * 100`: with the
significand `m` of `d1` in `[2 ^ 52, 2 ^ 53]`, the integer `m * 100` has
59 or 60 bits, so 6 or 7 low bits are rounded away to return to 53 bits. -/
def floatTimes100Shift (m : ℕ) : ℕ := if m * 100 < 2 ^ 59 then 6 else 7

/-- The 53-bit significand of the binary64 product `d1 * 100` (line 108's
float multiplication), where `m` is the significand of `d1`: `m * 100`
rounded to the nearest multiple of `2 ^ shift`, ties to even. -/
def floatTimes100Mant (m : ℕ) : ℕ :=
  roundHalfEvenDiv (m * 100) (2 ^ floatTimes100Shift m)

/-- Integer computation of line 108,
`int(round(len(overlap) / len(jd_tokens) * 100))`, with binary64 float
semantics: the division and the multiplication are each rounded to a
53-bit significand (nearest, ties to even), and `round` then rounds the
resulting dyadic value `m2 * 2 ^ shift / 2 ^ (k + 52)` to the nearest
integer, ties to even. -/
def matchScore (o j : ℕ) : ℕ :=
  roundHalfEvenDiv
    (floatTimes100Mant (floatDivMant o j) * 2 ^ floatTimes100Shift (floatDivMant o j))
    (2 ^ (floatDivExp o j + 52))

/-- The exact rational value of the binary64 evaluation of
`(o / j) * 100` (two roundings), used to state claim C2. -/
def floatRatioTimes100 (o j : ℕ) : ℚ :=
  ((floatTimes100Mant (floatDivMant o j) * 2 ^ floatTimes100Shift (floatDivMant o j) : ℕ) : ℚ) /
    ((2 ^ (floatDivExp o j + 52) : ℕ) : ℚ)

/-- The quadruple returned by `analyze_match` (lines 102 and 116). -/
structure MatchResult where
  match_score : ℤ
  overlap : List (List ℕ)
  missing : List (List ℕ)
  topJobKeywords : List (List ℕ × ℕ)
deriving DecidableEq

/-- Model of `analyze_match` (lines 97-116).  Python sets are modelled by
deduplicated lists: emptiness, size, membership and the sorted rendering
of a set do not depend on iteration order. -/
def analyze_match (resume_text job_text : List ℕ) : MatchResult :=
  let jd_tokens := (tokenize job_text).dedup
  let res_tokens := (tokenize resume_text).dedup
  if jd_tokens = [] then ⟨0, [], [], []⟩
  else
    let overlap := jd_tokens.filter (fun w => decide (w ∈ res_tokens))
    let missing := jd_tokens.filter (fun w => decide (w ∉ res_tokens))
    let match_score := (matchScore overlap.length jd_tokens.length : ℤ)
    let freq_job := freqTable (tokenize job_text)
    let top_job_keywords := (List.insertionSort countGE freq_job).take 10
    ⟨match_score, sortTokens overlap, sortTokens missing, top_job_keywords⟩

/-! ### The scanner emits exactly the kept maximal word runs -/

lemma endRun_eq_filter (cur : List ℕ) :
    endRun cur = (if cur = [] then [] else [cur.reverse]).filter keepRun := by
  unfold endRun
  split_ifs with h1 h2
  · rfl
  · simp [List.filter, h2]
  · simp [List.filter, h2]

lemma scanWords_eq_filter (l : List ℕ) :
    ∀ cur, scanWords cur l = (runsAux isWordChar cur l).filter keepRun := by
  induction l with
  | nil =>
    intro cur
    simp only [scanWords, runsAux]
    exact endRun_eq_filter cur
  | cons c cs ih =>
    intro cur
    by_cases h : isWordChar c
    · simp only [scanWords, runsAux, h, if_pos, ih]
    · simp only [scanWords, runsAux, h, if_neg, Bool.false_eq_true, not_false_iff,
        List.filter_append, ih]
      rw [endRun_eq_filter]

lemma reFindall_eq_filter_runs (l : List ℕ) :
    reFindallWords l = (runsBy isWordChar l).filter keepRun :=
  scanWords_eq_filter l []

/-! ### Characters of emitted runs come from the input -/

lemma mem_runsAux (p : ℕ → Bool) (l : List ℕ) :
    ∀ cur r, r ∈ runsAux p cur l → ∀ c ∈ r, c ∈ cur ∨ c ∈ l := by
  induction l with
  | nil =>
    intro cur r hr c hc
    simp only [runsAux] at hr
    split_ifs at hr with h1
    · simp at hr
    · simp only [List.mem_singleton] at hr
      subst hr
      exact Or.inl (List.mem_reverse.mp hc)
  | cons d ds ih =>
    intro cur r hr c hc
    simp only [runsAux] at hr
    split_ifs at hr with h1 h2
    · rcases ih (d :: cur) r hr c hc with hcur | hds
      · rcases List.mem_cons.mp hcur with rfl | hcur
        · exact Or.inr (List.mem_cons_self _ _)
        · exact Or.inl hcur
      · exact Or.inr (List.mem_cons_of_mem _ hds)
    · rw [List.nil_append] at hr
      rcases ih [] r hr c hc with hnil | hds
      · simp at hnil
      · exact Or.inr (List.mem_cons_of_mem _ hds)
    · rcases List.mem_append.mp hr with hpre | hrec
      · have hrc : r = cur.reverse := by simpa using hpre
        subst hrc
        exact Or.inl (List.mem_reverse.mp hc)
      · rcases ih [] r hrec c hc with hnil | hds
        · simp at hnil
        · exact Or.inr (List.mem_cons_of_mem _ hds)

lemma mem_runsBy (p : ℕ → Bool) (l : List ℕ) (r : List ℕ) (hr : r ∈ runsBy p l) :
    ∀ c ∈ r, c ∈ l := by
  intro c hc
  rcases mem_runsAux p l [] r hr c hc with h | h
  · simp at h
  · exact h

/-! ### Lowercasing lemmas -/

lemma lowerChar_idem (n : ℕ) : lowerChar (lowerChar n) = lowerChar n := by
  unfold lowerChar
  split_ifs <;> omega

lemma lowerChar_not_upper (n : ℕ) : ¬(65 ≤ lowerChar n ∧ lowerChar n ≤ 90) := by
  unfold lowerChar
  split_ifs <;> omega

lemma keepRun_spec {r : List ℕ} (h : keepRun r = true) :
    (∀ c ∈ r, isLetter c = true) ∧ 2 ≤ r.length := by
  simp only [keepRun, Bool.and_eq_true, List.all_eq_true, decide_eq_true_eq] at h
  exact h

/-! ### Claim C1 -/

/-- C1, corrected: on input `"ab1cd"` the code returns no token at all,
while the claim (digits act as separators between maximal letter runs)
demands the tokens `["ab", "cd"]`: a word boundary `\b` never occurs
between a letter and a digit, so a letter run adjacent to a digit is
dropped entirely, not separated. -/
theorem tokenize_digit_separator_cex :
    tokenize (strCodes "ab1cd") = [] ∧
    specTokenize (strCodes "ab1cd") = [strCodes "ab", strCodes "cd"] ∧
    tokenize (strCodes "ab1cd") ≠ specTokenize (strCodes "ab1cd") := by
  refine ⟨by decide, by decide, by decide⟩

lemma tokenize_eq_runs_filter (text : List ℕ) :
    tokenize text =
      ((runsBy isWordChar (text.map lowerChar)).filter
        (fun r => r.all isLetter && decide (2 ≤ r.length))).filter
        (fun w => decide (w ∉ STOPWORDS)) := by
  unfold tokenize reFindallWords
  rw [scanWords_eq_filter]
  rfl

/-- C1, amended: on every ASCII input (each codepoint at most 127, where
the modelled `\w` and `str.lower` fragments coincide with Python's
Unicode-aware ones), `tokenize` splits the lowercased input into maximal
runs of word characters (letters, digits, underscore); a run yields a
token iff it consists only of letters and has length at least 2 (a run
containing a digit or an underscore is dropped entirely, as is a run of
length 1); stopwords are then removed, and left-to-right order is
preserved.  Outside ASCII the same rule applies with the full Unicode
word-character class — so, e.g., `"café"` also yields no token. -/
theorem tokenize_eq_filtered_word_runs (text : List ℕ)
    (hascii : ∀ c ∈ text, c ≤ 127) :
    tokenize text =
      ((runsBy isWordChar (text.map lowerChar)).filter
        (fun r => r.all isLetter && decide (2 ≤ r.length))).filter
        (fun w => decide (w ∉ STOPWORDS)) :=
  tokenize_eq_runs_filter text

/-- Witness for C1's amended theorem at a concrete ASCII input. -/
theorem tokenize_eq_filtered_word_runs_witness :
    tokenize (strCodes "Ab1 cde FG") =
      ((runsBy isWordChar ((strCodes "Ab1 cde FG").map lowerChar)).filter
        (fun r => r.all isLetter && decide (2 ≤ r.length))).filter
        (fun w => decide (w ∉ STOPWORDS)) :=
  tokenize_eq_filtered_word_runs (strCodes "Ab1 cde FG") (by decide)

/-! ### Claim C6 -/

/-- C6: every token produced by `tokenize` is a lowercase ASCII letter
string (codepoints 97-122) of length at least 2 that is not a stopword,
and the empty text yields no tokens. -/
theorem tokenize_wellformed :
    (∀ T w, w ∈ tokenize T →
      (∀ c ∈ w, 97 ≤ c ∧ c ≤ 122) ∧ 2 ≤ w.length ∧ w ∉ STOPWORDS) ∧
    tokenize [] = [] := by
  constructor
  · intro T w hw
    rw [tokenize_eq_runs_filter] at hw
    have hw1 := List.mem_filter.mp hw
    have hstop : w ∉ STOPWORDS := of_decide_eq_true hw1.2
    have hw2 := List.mem_filter.mp hw1.1
    have hrun : w ∈ runsBy isWordChar (T.map lowerChar) := hw2.1
    have hkeep := keepRun_spec (show keepRun w = true from hw2.2)
    refine ⟨fun c hc => ?_, hkeep.2, hstop⟩
    have hcl : c ∈ T.map lowerChar := mem_runsBy _ _ _ hrun c hc
    have hletter : isLetter c = true := hkeep.1 c hc
    rcases List.mem_map.mp hcl with ⟨x, _, rfl⟩
    have hnu := lowerChar_not_upper x
    have : (65 ≤ lowerChar x ∧ lowerChar x ≤ 90) ∨
        (97 ≤ lowerChar x ∧ lowerChar x ≤ 122) := by
      simpa [isLetter] using hletter
    omega
  · rfl

/-- Witness for C6 at a concrete input. -/
theorem tokenize_wellformed_witness :
    (∀ c ∈ strCodes "know", 97 ≤ c ∧ c ≤ 122) ∧
      2 ≤ (strCodes "know").length ∧ strCodes "know" ∉ STOPWORDS :=
  tokenize_wellformed.1 (strCodes "I know Python") (strCodes "know") (by decide)

/-! ### Claim C10 -/

/-- C10: tokenization is insensitive to letter case: tokenizing the
lowercased text gives the same tokens as tokenizing the text itself. -/
theorem tokenize_case_insensitive (T : List ℕ) :
    tokenize (T.map lowerChar) = tokenize T := by
  unfold tokenize
  rw [List.map_map]
  have : T.map (lowerChar ∘ lowerChar) = T.map lowerChar :=
    List.map_congr_left fun a _ => lowerChar_idem a
  rw [this]

/-! ### The token order is total and transitive -/

lemma lexLe_total : ∀ x y : List ℕ, lexLe x y = true ∨ lexLe y x = true := by
  intro x
  induction x with
  | nil => intro y; exact Or.inl rfl
  | cons a as ih =>
    intro y
    cases y with
    | nil => exact Or.inr rfl
    | cons b bs =>
      rcases Nat.lt_trichotomy a b with h | h | h
      · left; simp [lexLe, h]
      · subst h
        have ha : ¬a < a := Nat.lt_irrefl a
        rcases ih bs with H | H
        · left; simp [lexLe, ha, H]
        · right; simp [lexLe, ha, H]
      · have h2 : ¬a < b := Nat.lt_asymm h
        right; simp [lexLe, h, h2]

lemma lexLe_trans :
    ∀ x y z : List ℕ, lexLe x y = true → lexLe y z = true → lexLe x z = true := by
  intro x
  induction x with
  | nil => intro y z _ _; rfl
  | cons a as ih =>
    intro y z h1 h2
    cases y with
    | nil => simp [lexLe] at h1
    | cons b bs =>
      cases z with
      | nil => simp [lexLe] at h2
      | cons c cs =>
        simp only [lexLe] at h1 h2 ⊢
        split_ifs at h1 h2 ⊢ <;>
          first
          | rfl
          | (exact ih bs cs h1 h2)
          | (exfalso; omega)

instance : IsTotal (List ℕ) tokLe := ⟨lexLe_total⟩

instance : IsTrans (List ℕ) tokLe := ⟨lexLe_trans⟩

lemma sortTokens_sorted (l : List (List ℕ)) : (sortTokens l).Sorted tokLe :=
  List.sorted_insertionSort tokLe l

lemma sortTokens_perm (l : List (List ℕ)) : List.Perm (sortTokens l) l :=
  List.perm_insertionSort tokLe l

lemma mem_sortTokens {w : List ℕ} {l : List (List ℕ)} :
    w ∈ sortTokens l ↔ w ∈ l :=
  (sortTokens_perm l).mem_iff

/-! ### Claim C4 -/

/-- C4: `overlap` is the lexicographically sorted duplicate-free sequence
of the tokens common to job and resume, `missing` the sorted duplicate-free
sequence of job tokens absent from the resume; they are disjoint and
together cover exactly the job token set. -/
theorem analyze_overlap_missing_sets (R J : List ℕ) :
    (analyze_match R J).overlap.Sorted tokLe ∧
    (analyze_match R J).overlap.Nodup ∧
    (∀ w, w ∈ (analyze_match R J).overlap ↔ w ∈ tokenize J ∧ w ∈ tokenize R) ∧
    (analyze_match R J).missing.Sorted tokLe ∧
    (analyze_match R J).missing.Nodup ∧
    (∀ w, w ∈ (analyze_match R J).missing ↔ w ∈ tokenize J ∧ w ∉ tokenize R) ∧
    (∀ w, w ∈ (analyze_match R J).overlap → w ∉ (analyze_match R J).missing) ∧
    (∀ w, w ∈ tokenize J ↔
      w ∈ (analyze_match R J).overlap ∨ w ∈ (analyze_match R J).missing) := by
  by_cases hje : (tokenize J).dedup = []
  · have hJ : tokenize J = [] := (List.dedup_eq_nil _).mp hje
    simp [analyze_match, hje, hJ]
  · simp only [analyze_match, hje, if_neg, ite_false]
    set jd := (tokenize J).dedup with hjd
    set rs := (tokenize R).dedup with hrs
    have hov : ∀ w, w ∈ jd.filter (fun w => decide (w ∈ rs)) ↔
        w ∈ tokenize J ∧ w ∈ tokenize R := by
      intro w
      rw [List.mem_filter, decide_eq_true_eq, hjd, hrs, List.mem_dedup, List.mem_dedup]
    have hms : ∀ w, w ∈ jd.filter (fun w => decide (w ∉ rs)) ↔
        w ∈ tokenize J ∧ w ∉ tokenize R := by
      intro w
      rw [List.mem_filter, decide_eq_true_eq, hjd, hrs, List.mem_dedup, List.mem_dedup]
    have hnd : jd.Nodup := List.nodup_dedup _
    refine ⟨sortTokens_sorted _, ?_, ?_, sortTokens_sorted _, ?_, ?_, ?_, ?_⟩
    · exact ((sortTokens_perm _).nodup_iff).mpr (hnd.filter _)
    · intro w; rw [mem_sortTokens]; exact hov w
    · exact ((sortTokens_perm _).nodup_iff).mpr (hnd.filter _)
    · intro w; rw [mem_sortTokens]; exact hms w
    · intro w hw hw2
      rw [mem_sortTokens] at hw hw2
      exact ((hms w).mp hw2).2 ((hov w).mp hw).2
    · intro w
      rw [mem_sortTokens, mem_sortTokens, hov, hms]
      by_cases hwR : w ∈ tokenize R <;> simp [hwR]

/-- Witness for C4 at a concrete input. -/
theorem analyze_overlap_missing_sets_witness :
    strCodes "python" ∈
      (analyze_match (strCodes "python rules") (strCodes "python sql")).overlap :=
  ((analyze_overlap_missing_sets (strCodes "python rules") (strCodes "python sql")).2.2.1
    (strCodes "python")).mpr ⟨by decide, by decide⟩

/-! ### Claim C9 -/

/-- C9: `analyze_match` is a pure function of its two text arguments: runs
on equal inputs give equal results (side effects do not exist in the
model; the source function reads nothing but its arguments and the
constant stopword set). -/
theorem analyze_deterministic (R1 J1 R2 J2 : List ℕ) (hR : R1 = R2) (hJ : J1 = J2) :
    analyze_match R1 J1 = analyze_match R2 J2 := by
  rw [hR, hJ]

/-- Witness for C9 at a concrete input. -/
theorem analyze_deterministic_witness :
    analyze_match (strCodes "python") (strCodes "sql") =
      analyze_match (strCodes "python") (strCodes "sql") :=
  analyze_deterministic _ _ _ _ rfl rfl

/-! ### Claim C3 -/

/-- C3: `analyze_match` is total by construction, and whenever the job
text has no tokens (in particular for the empty job text) it returns the
guarded degenerate result: score 0 and empty overlap, missing and
frequency data, for every resume text. -/
theorem analyze_empty_job_guard :
    (∀ R J, tokenize J = [] → analyze_match R J = ⟨0, [], [], []⟩) ∧
    (∀ R, analyze_match R [] = ⟨0, [], [], []⟩) := by
  have h1 : ∀ R J, tokenize J = [] → analyze_match R J = ⟨0, [], [], []⟩ := by
    intro R J h
    simp [analyze_match, h]
  exact ⟨h1, fun R => h1 R [] rfl⟩

/-- Witness for C3 at a concrete input (a job text with no letters). -/
theorem analyze_empty_job_guard_witness :
    analyze_match (strCodes "python sql") (strCodes "12 34 !") = ⟨0, [], [], []⟩ :=
  analyze_empty_job_guard.1 (strCodes "python sql") (strCodes "12 34 !") (by decide)

/-! ### The integer score equals round-half-even of the exact ratio -/

lemma pyRound_natDiv (a b : ℕ) (hb : b ≠ 0) :
    (roundHalfEvenDiv a b : ℤ) = pyRound ((a : ℚ) / (b : ℚ)) := by
  have hb0 : (0 : ℚ) < (b : ℚ) := by
    exact_mod_cast Nat.pos_of_ne_zero hb
  have hfloor : ⌊(a : ℚ) / (b : ℚ)⌋ = ((a / b : ℕ) : ℤ) := by
    rw [Rat.floor_natCast_div_natCast]
    exact (Int.ofNat_div a b).symm
  have key : (a : ℚ) = (b : ℚ) * ((a / b : ℕ) : ℚ) + ((a % b : ℕ) : ℚ) := by
    exact_mod_cast (Nat.div_add_mod a b).symm
  have hfrac : (a : ℚ) / (b : ℚ) - (((a / b : ℕ) : ℤ) : ℚ) =
      ((a % b : ℕ) : ℚ) / (b : ℚ) := by
    rw [Int.cast_natCast]
    field_simp
    linarith [key]
  have hlt : ((a % b : ℕ) : ℚ) / (b : ℚ) < 1 / 2 ↔ 2 * (a % b) < b := by
    rw [div_lt_div_iff hb0 (by norm_num : (0 : ℚ) < 2), one_mul,
      show ((a % b : ℕ) : ℚ) * 2 = ((2 * (a % b) : ℕ) : ℚ) by push_cast; ring]
    exact Nat.cast_lt
  have hgt : 1 / 2 < ((a % b : ℕ) : ℚ) / (b : ℚ) ↔ b < 2 * (a % b) := by
    rw [div_lt_div_iff (by norm_num : (0 : ℚ) < 2) hb0, one_mul,
      show ((a % b : ℕ) : ℚ) * 2 = ((2 * (a % b) : ℕ) : ℚ) by push_cast; ring]
    exact Nat.cast_lt
  have hdvd : (2 : ℤ) ∣ ((a / b : ℕ) : ℤ) ↔ 2 ∣ a / b := by
    exact_mod_cast Iff.rfl
  simp only [pyRound, roundHalfEvenDiv]
  rw [hfloor, hfrac]
  by_cases h1 : 2 * (a % b) < b
  · rw [if_pos h1, if_pos (hlt.mpr h1)]
  · rw [if_neg h1, if_neg (fun hc => h1 (hlt.mp hc))]
    by_cases h2 : b < 2 * (a % b)
    · rw [if_pos h2, if_pos (hgt.mpr h2)]
      push_cast
      ring
    · rw [if_neg h2, if_neg (fun hc => h2 (hgt.mp hc))]
      by_cases h3 : 2 ∣ a / b
      · rw [if_pos h3, if_pos (hdvd.mpr h3)]
      · rw [if_neg h3, if_neg (fun hc => h3 (hdvd.mp hc))]
        push_cast
        ring

lemma roundHalfEvenDiv_le (a b N : ℕ) (hb : b ≠ 0) (h : a ≤ N * b) :
    roundHalfEvenDiv a b ≤ N := by
  have hb0 : 0 < b := Nat.pos_of_ne_zero hb
  simp only [roundHalfEvenDiv]
  rcases Nat.lt_or_ge a (N * b) with hlt | hge
  · have hq : a / b < N := (Nat.div_lt_iff_lt_mul hb0).mpr (by omega)
    split_ifs <;> omega
  · have ha : a = N * b := le_antisymm h hge
    have hr : a % b = 0 := by rw [ha]; exact Nat.mul_mod_left N b
    have hq : a / b = N := by rw [ha]; exact Nat.mul_div_cancel N hb0
    split_ifs <;> omega

lemma roundHalfEvenDiv_ge_div (a b : ℕ) : a / b ≤ roundHalfEvenDiv a b := by
  simp only [roundHalfEvenDiv]
  split_ifs <;> omega

lemma roundHalfEvenDiv_exact (a b : ℕ) (hb : b ≠ 0) (h : a % b = 0) :
    roundHalfEvenDiv a b = a / b := by
  have hb0 : 0 < b := Nat.pos_of_ne_zero hb
  simp only [roundHalfEvenDiv]
  rw [h, if_pos (by omega : 2 * 0 < b)]

/-! ### The float exponent search is correct -/

lemma kAux_spec (o j : ℕ) :
    ∀ fuel k, j ≤ o * 2 ^ (k + fuel) →
      j ≤ o * 2 ^ kAux o j fuel k ∧
        (kAux o j fuel k = k ∨
          (1 ≤ kAux o j fuel k ∧ ¬j ≤ o * 2 ^ (kAux o j fuel k - 1))) := by
  intro fuel
  induction fuel with
  | zero =>
    intro k h
    rw [show kAux o j 0 k = k from rfl]
    exact ⟨by simpa using h, Or.inl rfl⟩
  | succ fuel ih =>
    intro k h
    simp only [kAux]
    split_ifs with hk
    · exact ⟨hk, Or.inl rfl⟩
    · have h2 : j ≤ o * 2 ^ (k + 1 + fuel) := by
        have he : k + 1 + fuel = k + (fuel + 1) := by omega
        rw [he]
        exact h
      rcases ih (k + 1) h2 with ⟨ha, hb⟩
      refine ⟨ha, Or.inr ?_⟩
      rcases hb with heq | ⟨h1, hnot⟩
      · rw [heq]
        exact ⟨by omega, by simpa using hk⟩
      · exact ⟨by omega, hnot⟩

/-- The exponent found for `o / j` is canonical: `2 ^ (-k) ≤ o / j`, and
`k` is minimal with that property. -/
lemma floatDivExp_spec (o j : ℕ) (ho : 1 ≤ o) :
    j ≤ o * 2 ^ floatDivExp o j ∧
      (floatDivExp o j = 0 ∨
        (1 ≤ floatDivExp o j ∧ ¬j ≤ o * 2 ^ (floatDivExp o j - 1))) := by
  have hfuel : j ≤ o * 2 ^ (0 + j) := by
    have h1 : j ≤ 2 ^ j := Nat.le_of_lt (Nat.lt_two_pow j)
    have h2 : 2 ^ j ≤ o * 2 ^ j := by
      calc 2 ^ j = 1 * 2 ^ j := (Nat.one_mul _).symm
        _ ≤ o * 2 ^ j := Nat.mul_le_mul_right _ ho
    rw [Nat.zero_add]
    omega
  exact kAux_spec o j j 0 hfuel

/-- For `1 ≤ o ≤ j` the significand of the float quotient is normalized:
it lies in `[2 ^ 52, 2 ^ 53]`. -/
lemma floatDivMant_lower (o j : ℕ) (ho : 1 ≤ o) (hj : j ≠ 0) :
    2 ^ 52 ≤ floatDivMant o j := by
  have hsp := (floatDivExp_spec o j ho).1
  unfold floatDivMant
  refine le_trans ?_ (roundHalfEvenDiv_ge_div _ _)
  rw [Nat.le_div_iff_mul_le (Nat.pos_of_ne_zero hj)]
  calc 2 ^ 52 * j ≤ 2 ^ 52 * (o * 2 ^ floatDivExp o j) := Nat.mul_le_mul_left _ hsp
    _ = o * 2 ^ (floatDivExp o j + 52) := by rw [pow_add]; ring

lemma floatDivMant_upper (o j : ℕ) (ho : 1 ≤ o) (hoj : o ≤ j) (hj : j ≠ 0) :
    floatDivMant o j ≤ 2 ^ 53 := by
  rcases (floatDivExp_spec o j ho).2 with h0 | ⟨h1, hnot⟩
  · unfold floatDivMant
    rw [h0, Nat.zero_add]
    have h := roundHalfEvenDiv_le (o * 2 ^ 52) j (2 ^ 52) hj (by
      calc o * 2 ^ 52 ≤ j * 2 ^ 52 := Nat.mul_le_mul_right _ hoj
        _ = 2 ^ 52 * j := Nat.mul_comm _ _)
    exact le_trans h (by norm_num)
  · unfold floatDivMant
    have hlt : o * 2 ^ (floatDivExp o j - 1) < j := Nat.lt_of_not_le hnot
    apply roundHalfEvenDiv_le _ _ _ hj
    have hexp : floatDivExp o j + 52 = floatDivExp o j - 1 + 53 := by omega
    rw [hexp, pow_add]
    calc o * (2 ^ (floatDivExp o j - 1) * 2 ^ 53)
        = o * 2 ^ (floatDivExp o j - 1) * 2 ^ 53 := by ring
      _ ≤ j * 2 ^ 53 := Nat.mul_le_mul_right _ (le_of_lt hlt)
      _ = 2 ^ 53 * j := Nat.mul_comm _ _

/-! ### Bounds on the float-rounded score -/

lemma matchScore_le_100 (o j : ℕ) (hj : j ≠ 0) (hoj : o ≤ j) :
    matchScore o j ≤ 100 := by
  have hpow : ∀ n : ℕ, (2 : ℕ) ^ n ≠ 0 := fun n => (pow_pos (by omega : (0 : ℕ) < 2) n).ne'
  have hs7 : floatTimes100Shift (floatDivMant o j) ≤ 7 := by
    unfold floatTimes100Shift
    split_ifs <;> omega
  have hm_le : floatDivMant o j ≤ 2 ^ (floatDivExp o j + 52) := by
    unfold floatDivMant
    apply roundHalfEvenDiv_le _ _ _ hj
    calc o * 2 ^ (floatDivExp o j + 52) ≤ j * 2 ^ (floatDivExp o j + 52) :=
        Nat.mul_le_mul_right _ hoj
      _ = 2 ^ (floatDivExp o j + 52) * j := Nat.mul_comm _ _
  have hss : floatDivExp o j + 52 - floatTimes100Shift (floatDivMant o j) +
      floatTimes100Shift (floatDivMant o j) = floatDivExp o j + 52 :=
    Nat.sub_add_cancel (by omega)
  have hm2_le : floatTimes100Mant (floatDivMant o j) ≤
      100 * 2 ^ (floatDivExp o j + 52 - floatTimes100Shift (floatDivMant o j)) := by
    unfold floatTimes100Mant
    apply roundHalfEvenDiv_le _ _ _ (hpow _)
    calc floatDivMant o j * 100 ≤ 2 ^ (floatDivExp o j + 52) * 100 :=
        Nat.mul_le_mul_right _ hm_le
      _ = 100 * 2 ^ (floatDivExp o j + 52 - floatTimes100Shift (floatDivMant o j)) *
          2 ^ floatTimes100Shift (floatDivMant o j) := by
        rw [Nat.mul_assoc, ← pow_add, hss, Nat.mul_comm]
  unfold matchScore
  apply roundHalfEvenDiv_le _ _ _ (hpow _)
  calc floatTimes100Mant (floatDivMant o j) * 2 ^ floatTimes100Shift (floatDivMant o j) ≤
      100 * 2 ^ (floatDivExp o j + 52 - floatTimes100Shift (floatDivMant o j)) *
        2 ^ floatTimes100Shift (floatDivMant o j) :=
      Nat.mul_le_mul_right _ hm2_le
    _ = 100 * 2 ^ (floatDivExp o j + 52) := by rw [Nat.mul_assoc, ← pow_add, hss]

/-- At `o = j` every float step is exact: the score is 100. -/
lemma matchScore_self (j : ℕ) (hj : j ≠ 0) : matchScore j j = 100 := by
  have hk : floatDivExp j j = 0 := by
    obtain ⟨jj, rfl⟩ := Nat.exists_eq_succ_of_ne_zero hj
    unfold floatDivExp
    simp only [kAux]
    rw [if_pos (by simp)]
  have hm : floatDivMant j j = 2 ^ 52 := by
    unfold floatDivMant
    rw [hk, Nat.zero_add,
      roundHalfEvenDiv_exact _ _ hj (Nat.mul_mod_right j (2 ^ 52))]
    exact Nat.mul_div_cancel_left _ (Nat.pos_of_ne_zero hj)
  unfold matchScore
  rw [hk, hm]
  decide

/-! ### Claim C2 -/

/-- C2, amended: with a non-empty job token set, the score is the nearest
integer (ties to even) to the binary64 evaluation of
`|overlap| / |jobSet| * 100` — the division and the multiplication each
rounded to a 53-bit significand, nearest, ties to even — and it always
lies between 0 and 100.  It is not the exact rational rounding of
`100 * |overlap| / |jobSet|`: see the counterexample at 23/40. -/
theorem analyze_score_rounded (R J : List ℕ) (h : tokenize J ≠ []) :
    (analyze_match R J).match_score =
      pyRound (floatRatioTimes100 (analyze_match R J).overlap.length
        (tokenize J).dedup.length) ∧
    0 ≤ (analyze_match R J).match_score ∧
    (analyze_match R J).match_score ≤ 100 := by
  have hd : (tokenize J).dedup ≠ [] := fun hc => h ((List.dedup_eq_nil _).mp hc)
  have hlen : (tokenize J).dedup.length ≠ 0 := fun hc => hd (List.length_eq_zero.mp hc)
  simp only [analyze_match, hd, ite_false, if_neg]
  set jd := (tokenize J).dedup with hjd
  set ov := jd.filter (fun w => decide (w ∈ (tokenize R).dedup)) with hov
  have hlen2 : (sortTokens ov).length = ov.length := (sortTokens_perm ov).length_eq
  refine ⟨?_, ?_, ?_⟩
  · rw [hlen2]
    unfold matchScore floatRatioTimes100
    exact pyRound_natDiv _ _ ((pow_pos (by omega : (0 : ℕ) < 2) _).ne')
  · exact Int.natCast_nonneg _
  · have hle : ov.length ≤ jd.length := List.length_filter_le _ jd
    exact_mod_cast matchScore_le_100 ov.length jd.length hlen hle

/-- Concrete texts with 40 distinct job tokens of which the resume
contains 23: the float score differs from the exact rational rounding. -/
def cexResume : List ℕ :=
  strCodes "qa qb qc qd qe qf qg qh qi qj qk ql qm qn qo qp qq qr qs qt qu qv qw"

/-- The 40-token job text for the C2 counterexample. -/
def cexJob : List ℕ :=
  strCodes "qa qb qc qd qe qf qg qh qi qj qk ql qm qn qo qp qq qr qs qt qu qv qw qx qy qz za zb zc zd ze zf zg zh zi zj zk zl zm zn"

/-- C2, counterexample: at `|overlap| = 23`, `|jobSet| = 40` the program
computes `round(23/40 * 100)` in binary64 and returns 57 (the double
`23/40` is slightly below 0.575, so the product is slightly below 57.5),
while the claim's exact round-half-to-even of `100 * 23 / 40 = 57.5`
is 58. -/
theorem analyze_score_float_cex :
    (analyze_match cexResume cexJob).match_score = 57 ∧
    (analyze_match cexResume cexJob).overlap.length = 23 ∧
    (tokenize cexJob).dedup.length = 40 ∧
    pyRound (100 * ((analyze_match cexResume cexJob).overlap.length : ℚ) /
      ((tokenize cexJob).dedup.length : ℚ)) = 58 ∧
    (analyze_match cexResume cexJob).match_score ≠
      pyRound (100 * ((analyze_match cexResume cexJob).overlap.length : ℚ) /
        ((tokenize cexJob).dedup.length : ℚ)) := by
  have h23 : (analyze_match cexResume cexJob).overlap.length = 23 := by decide
  have h40 : (tokenize cexJob).dedup.length = 40 := by decide
  have hs : (analyze_match cexResume cexJob).match_score = 57 := by decide
  have harg : 100 * (((analyze_match cexResume cexJob).overlap.length : ℕ) : ℚ) /
      (((tokenize cexJob).dedup.length : ℕ) : ℚ) = 115 / 2 := by
    rw [h23, h40]
    norm_num
  have hf : ⌊(115 / 2 : ℚ)⌋ = 57 := by
    rw [Int.floor_eq_iff]
    constructor <;> norm_num
  have hp : pyRound (115 / 2) = 58 := by
    simp only [pyRound, hf]
    have hr : (115 / 2 : ℚ) - ((57 : ℤ) : ℚ) = 1 / 2 := by
      push_cast
      norm_num
    rw [hr, if_neg (lt_irrefl _), if_neg (lt_irrefl _),
      if_neg (by omega : ¬(2 : ℤ) ∣ 57)]
    decide
  refine ⟨hs, h23, h40, by rw [harg]; exact hp, ?_⟩
  rw [hs, harg, hp]
  decide

/-- Witness for C2 at a concrete input. -/
theorem analyze_score_rounded_witness :
    tokenize (strCodes "Python Python SQL SQL SQL Excel") ≠ [] ∧
    (0 ≤ (analyze_match (strCodes "I know Python and Excel")
        (strCodes "Python Python SQL SQL SQL Excel")).match_score ∧
      (analyze_match (strCodes "I know Python and Excel")
        (strCodes "Python Python SQL SQL SQL Excel")).match_score ≤ 100) :=
  ⟨by decide,
    (analyze_score_rounded (strCodes "I know Python and Excel")
      (strCodes "Python Python SQL SQL SQL Excel") (by decide)).2⟩

/-! ### Claim C8 -/

/-- C8: when resume and job have the same token set (and it is non-empty),
the score is 100 and nothing is missing. -/
theorem analyze_full_match (R J : List ℕ)
    (hset : ∀ w, w ∈ tokenize R ↔ w ∈ tokenize J) (h : tokenize J ≠ []) :
    (analyze_match R J).match_score = 100 ∧ (analyze_match R J).missing = [] := by
  have hd : (tokenize J).dedup ≠ [] := fun hc => h ((List.dedup_eq_nil _).mp hc)
  have hlen : (tokenize J).dedup.length ≠ 0 := fun hc => hd (List.length_eq_zero.mp hc)
  simp only [analyze_match, hd, ite_false, if_neg]
  constructor
  · have hov : ((tokenize J).dedup.filter
        (fun w => decide (w ∈ (tokenize R).dedup))) = (tokenize J).dedup := by
      rw [List.filter_eq_self]
      intro w hw
      rw [decide_eq_true_eq, List.mem_dedup]
      exact (hset w).mpr (List.mem_dedup.mp hw)
    rw [hov, matchScore_self _ hlen]
    rfl
  · have hms : ((tokenize J).dedup.filter
        (fun w => decide (w ∉ (tokenize R).dedup))) = [] := by
      rw [List.filter_eq_nil_iff]
      intro w hw hdec
      exact (of_decide_eq_true hdec)
        (List.mem_dedup.mpr ((hset w).mpr (List.mem_dedup.mp hw)))
    rw [hms]
    rfl

/-- Witness for C8 at a concrete input. -/
theorem analyze_full_match_witness :
    (analyze_match (strCodes "python sql") (strCodes "python sql")).match_score = 100 ∧
    (analyze_match (strCodes "python sql") (strCodes "python sql")).missing = [] :=
  analyze_full_match (strCodes "python sql") (strCodes "python sql")
    (fun _ => Iff.rfl) (by decide)

/-! ### Frequency table lemmas -/

lemma getD_cons_self {p : List ℕ × ℕ} {l : List (List ℕ × ℕ)} {w : List ℕ}
    (hp : p.1 = w) : getD (p :: l) w = p.2 := by
  unfold getD
  rw [show List.find? (fun q : List ℕ × ℕ => decide (q.1 = w)) (p :: l) = some p from
    List.find?_cons_of_pos l (by simp [hp])]

lemma getD_cons_ne {p : List ℕ × ℕ} {l : List (List ℕ × ℕ)} {w : List ℕ}
    (hp : p.1 ≠ w) : getD (p :: l) w = getD l w := by
  unfold getD
  rw [show List.find? (fun q : List ℕ × ℕ => decide (q.1 = w)) (p :: l) =
      List.find? (fun q : List ℕ × ℕ => decide (q.1 = w)) l from
    List.find?_cons_of_neg l (by simp [hp])]

lemma bump_cons_ne {p : List ℕ × ℕ} {l : List (List ℕ × ℕ)} {w : List ℕ}
    (hp : p.1 ≠ w) : bump (p :: l) w = p :: bump l w := by
  unfold bump
  have hany : (p :: l).any (fun q => decide (q.1 = w)) =
      l.any (fun q => decide (q.1 = w)) := by
    simp [List.any_cons, hp]
  rw [hany]
  by_cases h : l.any (fun q => decide (q.1 = w)) = true
  · simp only [h, if_pos, List.map_cons, if_neg hp]
  · simp only [h, if_neg, Bool.false_eq_true, not_false_iff, List.cons_append]

lemma bump_getD_self (w : List ℕ) : ∀ l, getD (bump l w) w = getD l w + 1 := by
  intro l
  induction l with
  | nil =>
    rw [show bump [] w = [(w, 1)] from rfl, getD_cons_self rfl]
    rfl
  | cons p l ih =>
    by_cases hp : p.1 = w
    · have hany : (p :: l).any (fun q => decide (q.1 = w)) = true := by
        simp [List.any_cons, hp]
      unfold bump
      rw [hany, if_pos rfl, List.map_cons, if_pos hp]
      rw [getD_cons_self (show ((p.1, p.2 + 1) : List ℕ × ℕ).1 = w from hp),
        getD_cons_self hp]
    · rw [bump_cons_ne hp, getD_cons_ne hp, getD_cons_ne hp, ih]

lemma getD_map_ne (w v : List ℕ) (hv : v ≠ w) :
    ∀ l, getD (l.map (fun p => if p.1 = w then (p.1, p.2 + 1) else p)) v = getD l v := by
  intro l
  induction l with
  | nil => rfl
  | cons p l ih =>
    rw [List.map_cons]
    by_cases hp : p.1 = v
    · have hpw : p.1 ≠ w := by rw [hp]; exact hv
      rw [if_neg hpw, getD_cons_self hp, getD_cons_self hp]
    · by_cases hpw : p.1 = w
      · rw [if_pos hpw,
          getD_cons_ne (show ((p.1, p.2 + 1) : List ℕ × ℕ).1 ≠ v from hp),
          getD_cons_ne hp, ih]
      · rw [if_neg hpw, getD_cons_ne hp, getD_cons_ne hp, ih]

lemma getD_append_single (w v : List ℕ) (hv : v ≠ w) :
    ∀ l, getD (l ++ [(w, 1)]) v = getD l v := by
  intro l
  induction l with
  | nil =>
    rw [List.nil_append, getD_cons_ne (show w ≠ v from fun h => hv h.symm)]
  | cons p l ih =>
    rw [List.cons_append]
    by_cases hp : p.1 = v
    · rw [getD_cons_self hp, getD_cons_self hp]
    · rw [getD_cons_ne hp, getD_cons_ne hp, ih]

lemma bump_getD_ne (v w : List ℕ) (hv : v ≠ w) :
    ∀ l, getD (bump l w) v = getD l v := by
  intro l
  unfold bump
  split_ifs with h
  · exact getD_map_ne w v hv l
  · exact getD_append_single w v hv l

lemma foldl_bump_getD (w : List ℕ) :
    ∀ (ts : List (List ℕ)) (acc), getD (ts.foldl bump acc) w = getD acc w + ts.count w := by
  intro ts
  induction ts with
  | nil => intro acc; simp
  | cons t ts ih =>
    intro acc
    rw [List.foldl_cons, ih (bump acc t)]
    by_cases ht : w = t
    · subst ht
      rw [bump_getD_self w acc]
      simp [List.count_cons]
      omega
    · rw [bump_getD_ne w t ht acc]
      simp [List.count_cons, ht]

lemma map_fst_bump (l : List (List ℕ × ℕ)) (w : List ℕ) :
    (bump l w).map Prod.fst =
      if l.any (fun p => decide (p.1 = w)) then l.map Prod.fst
      else l.map Prod.fst ++ [w] := by
  unfold bump
  split_ifs with h
  · rw [List.map_map]
    exact List.map_congr_left fun p _ => by
      simp only [Function.comp]
      split_ifs <;> rfl
  · simp

lemma keys_nodup_bump (l : List (List ℕ × ℕ)) (w : List ℕ)
    (h : (l.map Prod.fst).Nodup) : ((bump l w).map Prod.fst).Nodup := by
  rw [map_fst_bump]
  split_ifs with hany
  · exact h
  · have hw : w ∉ l.map Prod.fst := by
      intro hmem
      rcases List.mem_map.mp hmem with ⟨p, hp, rfl⟩
      exact hany (List.any_eq_true.mpr ⟨p, hp, by simp⟩)
    rw [List.nodup_append]
    exact ⟨h, List.nodup_singleton w, fun a ha hb => hw ((List.mem_singleton.mp hb) ▸ ha)⟩

lemma mem_keys_bump (l : List (List ℕ × ℕ)) (w v : List ℕ) :
    v ∈ (bump l w).map Prod.fst ↔ v ∈ l.map Prod.fst ∨ v = w := by
  rw [map_fst_bump]
  split_ifs with hany
  · constructor
    · exact Or.inl
    · rintro (h | rfl)
      · exact h
      · rcases List.any_eq_true.mp hany with ⟨p, hp, hpd⟩
        exact List.mem_map.mpr ⟨p, hp, of_decide_eq_true hpd⟩
  · simp

lemma getD_entry : ∀ l : List (List ℕ × ℕ), (l.map Prod.fst).Nodup →
    ∀ p ∈ l, getD l p.1 = p.2 := by
  intro l
  induction l with
  | nil => intro _ p hp; simp at hp
  | cons q l ih =>
    intro hnd p hp
    rw [List.map_cons, List.nodup_cons] at hnd
    rcases List.mem_cons.mp hp with rfl | hp2
    · exact getD_cons_self rfl
    · by_cases hq : q.1 = p.1
      · exact absurd (hq ▸ List.mem_map.mpr ⟨p, hp2, rfl⟩) hnd.1
      · rw [getD_cons_ne hq]
        exact ih hnd.2 p hp2

lemma foldl_bump_keys_nodup :
    ∀ (ts : List (List ℕ)) (acc), (acc.map Prod.fst).Nodup →
      ((ts.foldl bump acc).map Prod.fst).Nodup := by
  intro ts
  induction ts with
  | nil => intro acc h; exact h
  | cons t ts ih =>
    intro acc h
    rw [List.foldl_cons]
    exact ih (bump acc t) (keys_nodup_bump acc t h)

lemma foldl_bump_mem_keys :
    ∀ (ts : List (List ℕ)) (acc) (v : List ℕ),
      v ∈ (ts.foldl bump acc).map Prod.fst ↔ v ∈ acc.map Prod.fst ∨ v ∈ ts := by
  intro ts
  induction ts with
  | nil => intro acc v; simp
  | cons t ts ih =>
    intro acc v
    rw [List.foldl_cons, ih (bump acc t), mem_keys_bump]
    simp only [List.mem_cons]
    tauto

lemma freqTable_keys_nodup (ts : List (List ℕ)) :
    ((freqTable ts).map Prod.fst).Nodup :=
  foldl_bump_keys_nodup ts [] (by simp)

lemma freqTable_getD (ts : List (List ℕ)) (w : List ℕ) :
    getD (freqTable ts) w = ts.count w := by
  unfold freqTable
  rw [foldl_bump_getD]
  simp [getD]

lemma freqTable_mem_count (ts : List (List ℕ)) (p : List ℕ × ℕ)
    (hp : p ∈ freqTable ts) : p.2 = ts.count p.1 := by
  have h1 := getD_entry (freqTable ts) (freqTable_keys_nodup ts) p hp
  rw [freqTable_getD] at h1
  exact h1.symm

lemma freqTable_mem_key (ts : List (List ℕ)) (w : List ℕ) (hw : w ∈ ts) :
    ∃ p ∈ freqTable ts, p.1 = w := by
  have hmem : w ∈ (freqTable ts).map Prod.fst :=
    (foldl_bump_mem_keys ts [] w).mpr (Or.inr hw)
  rcases List.mem_map.mp hmem with ⟨p, hp, hp1⟩
  exact ⟨p, hp, hp1⟩

/-! ### Claim C5 -/

/-- C5: every entry of `topJobKeywords` carries the exact occurrence count
of its token in the ordered job token sequence; there are at most 10
entries; the counts are non-increasing in the stated order; and no token
left out of the table occurs more often than any token in it. -/
theorem analyze_top_keywords (R J : List ℕ) :
    (∀ p ∈ (analyze_match R J).topJobKeywords, p.2 = (tokenize J).count p.1) ∧
    (analyze_match R J).topJobKeywords.length ≤ 10 ∧
    ((analyze_match R J).topJobKeywords.map Prod.snd).Sorted (fun a b => b ≤ a) ∧
    (∀ p ∈ (analyze_match R J).topJobKeywords, ∀ w ∈ tokenize J,
      w ∉ (analyze_match R J).topJobKeywords.map Prod.fst →
      (tokenize J).count w ≤ p.2) := by
  by_cases hje : (tokenize J).dedup = []
  · simp [analyze_match, hje]
  · simp only [analyze_match, hje, ite_false, if_neg]
    set S := List.insertionSort countGE (freqTable (tokenize J)) with hS
    have hperm : List.Perm S (freqTable (tokenize J)) := List.perm_insertionSort _ _
    have hsorted : S.Sorted countGE := List.sorted_insertionSort countGE _
    have hmem : ∀ p ∈ S.take 10, p ∈ freqTable (tokenize J) :=
      fun p hp => hperm.mem_iff.mp (List.take_subset 10 S hp)
    refine ⟨?_, ?_, ?_, ?_⟩
    · intro p hp
      exact freqTable_mem_count _ p (hmem p hp)
    · exact List.length_take_le 10 S
    · exact (List.Pairwise.sublist (List.take_sublist 10 S) hsorted).map Prod.snd
        fun a b h => h
    · intro p hp w hw hkeys
      rcases freqTable_mem_key (tokenize J) w hw with ⟨q, hq, hq1⟩
      have hqS : q ∈ S := hperm.mem_iff.mpr hq
      have hqdrop : q ∈ S.drop 10 := by
        rcases List.mem_append.mp
            ((List.take_append_drop 10 S) ▸ hqS) with htk | hdr
        · exact absurd (List.mem_map.mpr ⟨q, htk, hq1⟩) (hq1 ▸ hkeys)
        · exact hdr
      have hrel : countGE p q := hsorted.rel_of_mem_take_of_mem_drop hp hqdrop
      have hcount : q.2 = (tokenize J).count w := hq1 ▸ freqTable_mem_count _ q hq
      exact hcount ▸ hrel

/-- Witness for C5 at a concrete input. -/
theorem analyze_top_keywords_witness :
    ((strCodes "sql", 3) : List ℕ × ℕ).2 =
      (tokenize (strCodes "Python Python SQL SQL SQL Excel")).count
        ((strCodes "sql", 3) : List ℕ × ℕ).1 :=
  (analyze_top_keywords (strCodes "I know Python and Excel")
      (strCodes "Python Python SQL SQL SQL Excel")).1
    (strCodes "sql", 3) (by decide)

/-! ### Claim C7 -/

/-- C7: on the concrete resume and job of the spec example, the analyzer
returns score 67, overlap `["excel", "python"]`, missing `["sql"]` and
top keywords `sql: 3, python: 2, excel: 1`. -/
theorem analyze_concrete_example :
    analyze_match (strCodes "I know Python and Excel")
      (strCodes "Python Python SQL SQL SQL Excel") =
    ⟨67, [strCodes "excel", strCodes "python"], [strCodes "sql"],
      [(strCodes "sql", 3), (strCodes "python", 2), (strCodes "excel", 1)]⟩ := by
  decide

end ResumeTailor
